import Mathlib

/-!
Verification of the gravity-solver core of the n-body simulator.

Shallow embedding conventions:
* `f64` values are modelled as exact rationals (`ℚ`); `Vector3<f64>` and
  `Point3<f64>` both become `Vec3 := ℚ × ℚ × ℚ` (componentwise arithmetic,
  `cgmath` semantics).
* `f64::sqrt` has no exact rational counterpart, so every definition that
  needs `magnitude()` is parameterised by an abstract square-root function
  `sq : ℚ → ℚ`, applied to `magnitude2`.  All theorems are proved for every
  choice of `sq`, and both the code-side and the spec-side formulas use the
  same `sq`, exactly as both sides use the same `f64::sqrt`.
* Rust slices become `List`s; in-place mutation becomes value passing.
* Unbounded recursion (the octree builder `construct_rec`, the Barnes–Hut
  traversal `while let` loop, the work-splitter recursion) is modelled with
  an explicit fuel argument returning `Option`/a result sum type; `none`
  means the fuel bound was hit before the code would have returned.
-/

/-! ## Vectors (cgmath `Vector3<f64>` / `Point3<f64>`) -/

abbrev Vec3 := ℚ × ℚ × ℚ

/-- Componentwise squared magnitude, `cgmath::InnerSpace::magnitude2`. -/
def mag2 (v : Vec3) : ℚ := v.1 * v.1 + v.2.1 * v.2.1 + v.2.2 * v.2.2

/-! ## Constants, from `space/src/constants.rs` -/

/-- Average distance between earth and the sun, in meters. -/
def AU : ℚ := 1.495e11

/-- Mass of earth, in kilograms. -/
def M0 : ℚ := 5.972e24

/-- SI gravitational constant. -/
def G_ABS : ℚ := 6.674e-11

/-- Adjusted gravitational constant in earth masses and AU. -/
def G : ℚ := G_ABS * M0 / (AU * AU * AU)

/-- Softening constant, `constants.rs` value `1e-15`. -/
def COLLISION_EPSILON : ℚ := 1e-15

/-- Hard cap on number of threads, `constants.rs`. -/
def MAX_THREADS : Nat := 20

/-- Minimum number of objects per thread, `constants.rs`. -/
def OBJECTS_PER_THREAD : Nat := 2000

/-! ## Body model, from `space/src/sim/mod.rs` -/

/-- Rust struct `ObjectInfo { pos: Point3<f64>, vel: Vector3<f64>, mass: f64 }`. -/
structure ObjectInfo where
  pos : Vec3
  vel : Vec3
  mass : ℚ
deriving DecidableEq

/-- Placeholder body used to totalise list indexing (`objects[i]`); every
theorem relying on an index either carries the bound as a hypothesis or is
insensitive to the value. -/
def defaultObject : ObjectInfo := ⟨(0, 0, 0), (0, 0, 0), 0⟩

instance : Inhabited ObjectInfo := ⟨defaultObject⟩

/-- Embedding of `ObjectInfo::get_acc_towards` (`sim/mod.rs` lines 23-26):
`*out += rel * other.mass * G / (rel.magnitude2() * rel.magnitude() + COLLISION_EPSILON)`
with `rel = other.pos - self.pos`. -/
def get_acc_towards (sq : ℚ → ℚ) (self other : ObjectInfo) (out : Vec3) : Vec3 :=
  let rel := other.pos - self.pos
  out + (other.mass * G / (mag2 rel * sq (mag2 rel) + COLLISION_EPSILON)) • rel

/-- Embedding of `ObjectInfo::get_acc_towards_raw` (`sim/mod.rs` lines 29-37):
`*out += rel * other_mass * G / (mag_sq * mag_sq.sqrt() + COLLISION_EPSILON)`.
The Barnes–Hut traversal invokes it with `rel = center_mass - self.pos` and
`mag_sq = rel.magnitude2()`. -/
def get_acc_towards_raw (sq : ℚ → ℚ) (other_mass : ℚ) (rel : Vec3) (mag_sq : ℚ)
    (out : Vec3) : Vec3 :=
  out + (other_mass * G / (mag_sq * sq mag_sq + COLLISION_EPSILON)) • rel

/-! ## Direct evaluator, from `space/src/sim/direct.rs` -/

/-- Inner loop of `iter_chunk` (`direct.rs` lines 104-109): iterate over all
`(other_idx, other)` pairs of `objects.iter().enumerate()`, skip
`other_idx == i`, and accumulate `obj.get_acc_towards(other, out)`. -/
def accFromOthers (sq : ℚ → ℚ) (objects : List ObjectInfo) (i : Nat)
    (obj : ObjectInfo) (out : Vec3) : Vec3 :=
  (objects.enum).foldl
    (fun acc other =>
      if other.1 = i then acc else get_acc_towards sq obj other.2 acc)
    out

/-- Recursion over the out-buffer slots of `iter_chunk` (`direct.rs` lines
98-111): slot `idx` of the chunk accumulates the acceleration on body
`i = start + idx` from every other body. -/
def iterChunkGo (sq : ℚ → ℚ) (objects : List ObjectInfo) :
    List Vec3 → Nat → List Vec3
  | [], _ => []
  | out :: rest, i =>
      accFromOthers sq objects i (objects.getD i defaultObject) out ::
        iterChunkGo sq objects rest (i + 1)

/-- Embedding of `iter_chunk` (`direct.rs` lines 98-111). -/
def iter_chunk (sq : ℚ → ℚ) (objects : List ObjectInfo) (out_buffer : List Vec3)
    (start : Nat) : List Vec3 :=
  iterChunkGo sq objects out_buffer start

/-- Embedding of the integrator `add_acc` (`direct.rs` lines 60-73):
for each zipped `(obj, acc)` pair, `vel += acc * delta`, `pos += vel * delta`
(the already-updated velocity), then the acceleration slot is reset to zero.
Like `Iterator::zip`, the walk stops at the shorter list, leaving any tail
untouched. -/
def add_acc : List ObjectInfo → List Vec3 → ℚ → List ObjectInfo × List Vec3
  | [], acc, _ => ([], acc)
  | objects, [], _ => (objects, [])
  | obj :: objects, a :: accs, delta =>
      let vel := obj.vel + delta • a
      let pos := obj.pos + delta • vel
      let rest := add_acc objects accs delta
      (⟨pos, vel, obj.mass⟩ :: rest.1, (0, 0, 0) :: rest.2)

/-- Rust `usize::div_ceil` (for a positive divisor). -/
def natDivCeil (a b : Nat) : Nat := (a + b - 1) / b

/-- Embedding of `compute_target_threads` (`sim/mod.rs` lines 40-43):
`n_objects.div_ceil(OBJECTS_PER_THREAD).min(MAX_THREADS)` (the `assert!` on
`n_objects > 0` appears as a hypothesis of the theorems using it). -/
def compute_target_threads (n_objects : Nat) : Nat :=
  (natDivCeil n_objects OBJECTS_PER_THREAD).min MAX_THREADS

/-! ## Work splitter of `direct.rs` (`exec_iter_rec`, lines 113-132)

The recursion repeatedly calls `out_buffer.split_at_mut(per_thread)` and
processes the first `per_thread` slots at `start = idx * per_thread`; the
functional embedding returns the `(start, length)` pairs of the chunks, and
`execIterRec` below additionally computes the resulting buffer. -/

/-- Chunk decomposition performed by `exec_iter_rec` in `direct.rs`:
`remaining` is the current out-buffer length.  Fuel-limited; the code's
recursion consumes `per_thread` slots per level. -/
def chunksRec : Nat → Nat → Nat → Nat → Option (List (Nat × Nat))
  | 0, _, _, _ => none
  | fuel + 1, per_thread, remaining, idx =>
      if per_thread ≥ remaining then some [(idx * per_thread, remaining)]
      else
        match chunksRec fuel per_thread (remaining - per_thread) (idx + 1) with
        | none => none
        | some l => some ((idx * per_thread, per_thread) :: l)

/-- Value-level embedding of `exec_iter_rec` (`direct.rs` lines 113-132): the
base case (`per_thread >= out_buffer.len()`) runs `iter_chunk` on the whole
remaining buffer at `start = idx * per_thread`; otherwise the first
`per_thread` slots are processed and the rest recurses with `idx + 1`.
`rayon::join` runs the two halves on disjoint slices, so sequential
composition of the results is the faithful value-level semantics. -/
def execIterRec (sq : ℚ → ℚ) (objects : List ObjectInfo) :
    Nat → List Vec3 → Nat → Nat → Option (List Vec3)
  | 0, _, _, _ => none
  | fuel + 1, out_buffer, per_thread, idx =>
      if per_thread ≥ out_buffer.length then
        some (iter_chunk sq objects out_buffer (idx * per_thread))
      else
        match execIterRec sq objects fuel (out_buffer.drop per_thread)
            per_thread (idx + 1) with
        | none => none
        | some rest =>
            some (iter_chunk sq objects (out_buffer.take per_thread)
                (idx * per_thread) ++ rest)

/-! ## Legacy work splitter, from `space/src/sim.rs` (lines 104-124)

The legacy `exec_iter_rec` computes `next = (idx + 1) * per_thread`, an index
into the ORIGINAL buffer, but then calls `out_buffer.split_at_mut(next)` on
the current, already-shortened sub-slice.  `split_at_mut` panics when the
split index exceeds the slice length. -/

/-- Result of the legacy splitter: the produced `(start, length)` chunks, a
panic (out-of-bounds `split_at_mut`), or fuel exhaustion. -/
inductive SplitResult where
  | ok (chunks : List (Nat × Nat))
  | panicked
  | outOfFuel
deriving DecidableEq, Repr

/-- Embedding of the legacy `exec_iter_rec` in `sim.rs`: `n` is
`objects.len()`, `bufLen` the length of the current out-buffer sub-slice.
Chunks record `(start, slice length)` of each `iter_chunk` call. -/
def legacyExecIterRec : Nat → Nat → Nat → Nat → Nat → SplitResult
  | 0, _, _, _, _ => .outOfFuel
  | fuel + 1, n, bufLen, per_thread, idx =>
      let next := (idx + 1) * per_thread
      if next ≥ n then .ok [(idx * per_thread, bufLen)]
      else if bufLen < next then .panicked
      else
        match legacyExecIterRec fuel n (bufLen - next) per_thread (idx + 1) with
        | .ok l => .ok ((idx * per_thread, next) :: l)
        | r => r

/-- Per-thread chunk size computed by the legacy `exec_iter` (`sim.rs` lines
87-90): `objects.len() / n_threads`, plus one when the division has a
remainder. -/
def legacyPerThread (n n_threads : Nat) : Nat :=
  n / n_threads + (if n % n_threads > 0 then 1 else 0)

/-- Legacy `compute_target_threads` (`sim.rs` lines 49-52) with
`OBJECTS_PER_THREAD = 10` and `MAX_THREADS = 4`; the `f32` ceiling of
`n / 10.0` is exact for every input appearing in the theorems below, so it is
rendered as an integer ceiling division. -/
def legacyComputeTargetThreads (n_objects : Nat) : Nat :=
  (natDivCeil n_objects 10).min 4

/-! ## Octree regions, from `space/src/sim/barnes_hut/tree.rs` -/

/-- Rust struct `Region` (`tree.rs` lines 17-22). -/
structure Region where
  x_range : ℚ × ℚ
  y_range : ℚ × ℚ
  z_range : ℚ × ℚ
deriving DecidableEq

/-- Embedding of `Region::contains` (`tree.rs` lines 25-32): inclusive on the
lower bound of each axis, exclusive on the upper bound. -/
def Region.contains (r : Region) (p : Vec3) : Bool :=
  decide (r.x_range.1 ≤ p.1 ∧ p.1 < r.x_range.2 ∧
          r.y_range.1 ≤ p.2.1 ∧ p.2.1 < r.y_range.2 ∧
          r.z_range.1 ≤ p.2.2 ∧ p.2.2 < r.z_range.2)

/-- Embedding of `Region::size` (`tree.rs` lines 34-37): returns
`(x_range.1 - x_range.0).abs()` — the x extent only. -/
def Region.size (r : Region) : ℚ := |r.x_range.2 - r.x_range.1|

/-- Octant produced by one `IterOctants::next` step (`tree.rs` lines 237-267):
the code tests `index & 0b100` (x), `index & 0b010` (y), `index & 0b001` (z),
picking the lower half of the axis when the bit is clear and the upper half
when it is set; each octant spans `[base, base + half)` on every axis.  Here
the three bits are passed directly as booleans (`true` = upper half). -/
def octantBox (parent : Region) (bx byy bz : Bool) : Region :=
  let x_half := (parent.x_range.2 - parent.x_range.1) / 2
  let y_half := (parent.y_range.2 - parent.y_range.1) / 2
  let z_half := (parent.z_range.2 - parent.z_range.1) / 2
  let x_0 := if bx then parent.x_range.1 + x_half else parent.x_range.1
  let y_0 := if byy then parent.y_range.1 + y_half else parent.y_range.1
  let z_0 := if bz then parent.z_range.1 + z_half else parent.z_range.1
  ⟨(x_0, x_0 + x_half), (y_0, y_0 + y_half), (z_0, z_0 + z_half)⟩

/-- The eight octants yielded by `IterOctants` for `index = 0, 1, ..., 7`, in
iteration order (the booleans are the bits `0b100`, `0b010`, `0b001` of the
index). -/
def octants (parent : Region) : List Region :=
  [octantBox parent false false false,
   octantBox parent false false true,
   octantBox parent false true false,
   octantBox parent false true true,
   octantBox parent true false false,
   octantBox parent true false true,
   octantBox parent true true false,
   octantBox parent true true true]

/-! ## Octree nodes and construction, from `tree.rs`

The Rust tree is an arena (`Vec<FmmNode>` with `NodeId` indices); children are
created strictly after their parent and referenced by index.  The embedding
owns children directly, which is the same tree shape without the arena
indirection. -/

/-- Rust `FmmNode` with its `NodeData` variants (`tree.rs` lines 40-56). -/
inductive FmmNode where
  | external (region : Region) (point : Nat)
  | internal (region : Region) (children : List FmmNode) (center_mass : Vec3)
      (mass : ℚ)

/-- Embedding of `FmmNode::mass_center_mass` (`tree.rs` lines 77-87). -/
def mass_center_mass (objects : List ObjectInfo) : FmmNode → Vec3 × ℚ
  | .external _ point =>
      ((objects.getD point defaultObject).pos, (objects.getD point defaultObject).mass)
  | .internal _ _ center_mass mass => (center_mass, mass)

/-- Aggregation of `construct_rec` (`tree.rs` lines 183-207): total mass is
the sum of the children's `mass_center_mass` masses, and the center of mass is
the mass-weighted sum of their centers divided by the total
(`center_mass /= total_mass`; in `ℚ` division by a zero total yields zero
where `f64` would yield NaN). -/
def mkInternal (objects : List ObjectInfo) (region : Region)
    (children : List FmmNode) : FmmNode :=
  let total := (children.map (fun c => (mass_center_mass objects c).2)).sum
  let weighted := (children.map
    (fun c => (mass_center_mass objects c).2 • (mass_center_mass objects c).1)).sum
  .internal region children (total⁻¹ • weighted) total

/-- One level of `construct_rec` (`tree.rs` lines 155-211), parameterised by
the recursive call `rec`: walk the octants in `IterOctants` order, collect the
`group` of points inside each octant, skip empty groups, recurse on groups
with more than one point, make a leaf (`new_external`) for singleton groups,
then aggregate mass and center of mass over the accumulated children. -/
def octantFold (objects : List ObjectInfo)
    (rec : Region → List Nat → Option FmmNode) (points : List Nat)
    (acc : Option (List FmmNode)) (octant : Region) : Option (List FmmNode) :=
  match acc with
  | none => none
  | some cs =>
      let group := points.filter
        (fun p => octant.contains (objects.getD p defaultObject).pos)
      if group.isEmpty then some cs
      else if 1 < group.length then
        match rec octant group with
        | none => none
        | some child => some (cs ++ [child])
      else some (cs ++ [FmmNode.external octant (group.headD 0)])

def constructStep (objects : List ObjectInfo)
    (rec : Region → List Nat → Option FmmNode) (region : Region)
    (points : List Nat) : Option FmmNode :=
  match (octants region).foldl (octantFold objects rec points) (some []) with
  | none => none
  | some children => some (mkInternal objects region children)

/-- Fuel-limited embedding of `construct_rec`; the Rust function has no depth
bound, so `none` marks runs exceeding the fuel. -/
def construct_rec (objects : List ObjectInfo) : Nat → Region → List Nat → Option FmmNode
  | 0, _, _ => none
  | fuel + 1, region, points => constructStep objects (construct_rec objects fuel) region points

/-- Bounding fold of `build_tree` (`tree.rs` lines 130-140) for one axis:
starting from `f64::INFINITY`, each body folds `min = min(min, pos) - 0.1`, so
the first body always replaces the infinity.  Defined on nonempty data via the
head; for an empty body list the code would keep the infinities, which `ℚ`
cannot represent (no theorem below touches that case). -/
def boundMin (head : ℚ) (rest : List ℚ) : ℚ :=
  rest.foldl (fun m x => min m x - 0.1) (head - 0.1)

/-- Bounding fold for the max side: `max = max(max, pos) + 0.1` per body. -/
def boundMax (head : ℚ) (rest : List ℚ) : ℚ :=
  rest.foldl (fun m x => max m x + 0.1) (head + 0.1)

/-- Embedding of `FmmTree::build_tree` (`tree.rs` lines 129-153): compute the
padded bounding region of all bodies, then run `construct_rec` on the full id
list `0..objects.len()`. -/
def build_tree (objects : List ObjectInfo) (fuel : Nat) : Option FmmNode :=
  match objects with
  | [] => none
  | o :: os =>
      let region : Region :=
        ⟨(boundMin o.pos.1 (os.map (fun b => b.pos.1)),
          boundMax o.pos.1 (os.map (fun b => b.pos.1))),
         (boundMin o.pos.2.1 (os.map (fun b => b.pos.2.1)),
          boundMax o.pos.2.1 (os.map (fun b => b.pos.2.1))),
         (boundMin o.pos.2.2 (os.map (fun b => b.pos.2.2)),
          boundMax o.pos.2.2 (os.map (fun b => b.pos.2.2)))⟩
      construct_rec (o :: os) fuel region (List.range (o :: os).length)

/-! ## Barnes–Hut traversal, from `space/src/sim/barnes_hut/mod.rs`

`compute_acc` (lines 33-77) runs an explicit stack: `stack.pop()` takes the
last element of the `Vec` and `stack.extend(children)` appends the children in
order, so the last child is visited first.  Modelling the stack as a list with
its head on top, a pop-after-extend step turns `node :: rest` into
`children.reverse ++ rest`.  The `comp_count` statistics counter carries no
semantic content and is dropped. -/

/-- Fuel-limited embedding of the `while let Some(node_id) = stack.pop()` loop
of `compute_acc`: `id`/`obj` are the queried body, `theta_sq = theta * theta`.
At an `External` node the body-body interaction is applied unless the leaf is
the queried body itself; at an `Internal` node, `dist_sq == 0` skips the node,
`dist_sq * theta_sq < size_sq` pushes the children, and otherwise the node is
treated as a single body via `get_acc_towards_raw`. -/
def computeAccLoop (sq : ℚ → ℚ) (theta_sq : ℚ) (objects : List ObjectInfo) (id : Nat)
    (obj : ObjectInfo) : Nat → List FmmNode → Vec3 → Option Vec3
  | _, [], out => some out
  | 0, _ :: _, _ => none
  | fuel + 1, node :: rest, out =>
      match node with
      | .external _ point =>
          if point = id then computeAccLoop sq theta_sq objects id obj fuel rest out
          else computeAccLoop sq theta_sq objects id obj fuel rest
            (get_acc_towards sq obj (objects.getD point defaultObject) out)
      | .internal region children center_mass mass =>
          let rel := center_mass - obj.pos
          let dist_sq := mag2 rel
          if dist_sq = 0 then computeAccLoop sq theta_sq objects id obj fuel rest out
          else if dist_sq * theta_sq < Region.size region * Region.size region then
            computeAccLoop sq theta_sq objects id obj fuel
              (children.reverse ++ rest) out
          else computeAccLoop sq theta_sq objects id obj fuel rest
            (get_acc_towards_raw sq mass rel dist_sq out)

/-! ## Specification-side recursive traversal

The claim describes the traversal as a per-node case analysis applied
depth-first; the following recursive function is that description, written
over the same tree type.  The fuel argument bounds the tree depth; `depthLE`
below states that the bound is adequate, and on nodes within the bound the
value is fuel-independent. -/

/-- One level of the recursive acceleration specification. -/
def accOfNodeStep (sq : ℚ → ℚ) (theta_sq : ℚ) (objects : List ObjectInfo) (id : Nat)
    (obj : ObjectInfo) (rec : FmmNode → Vec3) : FmmNode → Vec3
  | .external _ point =>
      if point = id then 0
      else get_acc_towards sq obj (objects.getD point defaultObject) 0
  | .internal region children center_mass mass =>
      let rel := center_mass - obj.pos
      let dist_sq := mag2 rel
      if dist_sq = 0 then 0
      else if dist_sq * theta_sq < Region.size region * Region.size region then
        (children.map rec).sum
      else get_acc_towards_raw sq mass rel dist_sq 0

/-- Depth-first acceleration contribution of a subtree, with fuel bounding the
recursion depth (an `Internal` node at exhausted fuel contributes zero; the
theorems only use the function inside a `depthLE` bound). -/
def accOfNode (sq : ℚ → ℚ) (theta_sq : ℚ) (objects : List ObjectInfo) (id : Nat)
    (obj : ObjectInfo) : Nat → FmmNode → Vec3
  | 0, t =>
      match t with
      | .external r point => accOfNodeStep sq theta_sq objects id obj (fun _ => 0) (.external r point)
      | .internal _ _ _ _ => 0
  | fuel + 1, t => accOfNodeStep sq theta_sq objects id obj
      (accOfNode sq theta_sq objects id obj fuel) t

/-- Internal-node nesting depth bound: `depthLE fuel t` holds when every
`Internal` node of `t` sits at internal-depth below `fuel`. -/
def depthLE : Nat → FmmNode → Bool
  | _, .external _ _ => true
  | 0, .internal _ _ _ _ => false
  | fuel + 1, .internal _ children _ _ => children.all (depthLE fuel)

/-! ## Subtree bodies and the mass-aggregation invariant checker -/

/-- Bodies (object indices) referenced in a subtree, fuel-bounded like
`depthLE`. -/
def subtreePoints : Nat → FmmNode → List Nat
  | _, .external _ point => [point]
  | 0, .internal _ _ _ _ => []
  | fuel + 1, .internal _ children _ _ =>
      (children.map (subtreePoints fuel)).flatten

/-- Total mass of a set of bodies given by index. -/
def massOfPoints (objects : List ObjectInfo) (pts : List Nat) : ℚ :=
  (pts.map (fun p => (objects.getD p defaultObject).mass)).sum

/-- Mass-weighted position sum of a set of bodies given by index. -/
def weightedPosOfPoints (objects : List ObjectInfo) (pts : List Nat) : Vec3 :=
  (pts.map (fun p =>
    (objects.getD p defaultObject).mass • (objects.getD p defaultObject).pos)).sum

/-- Mass-aggregation invariant checker: at every `Internal` node the stored
mass must be the total mass of the bodies in its subtree, and the stored
center of mass must equal both the mass-weighted mean of those bodies and the
child-aggregated form `(Σ child.mass • child.center_of_mass) / mass`.
`Internal` nodes below the fuel bound make the check fail, so a `true` result
certifies every internal node of the tree. -/
def treeInvariant (objects : List ObjectInfo) : Nat → FmmNode → Bool
  | _, .external _ _ => true
  | 0, .internal _ _ _ _ => false
  | fuel + 1, .internal _ children center_mass mass =>
      let pts := (children.map (subtreePoints fuel)).flatten
      (decide (mass = massOfPoints objects pts) &&
       decide (center_mass = (massOfPoints objects pts)⁻¹ • weightedPosOfPoints objects pts) &&
       decide (center_mass = mass⁻¹ • (children.map
         (fun c => (mass_center_mass objects c).2 • (mass_center_mass objects c).1)).sum)) &&
      children.all (treeInvariant objects fuel)

/-! ## C1: the Direct evaluator computes the pairwise sum -/

/-- Specification-side formula of one pairwise contribution, as the spec
writes it: `G · other.mass · (other.pos - self.pos) / (|rel|³ + ε)` with the
cube rendered as `magnitude2 * sqrt(magnitude2)`. -/
def accContribution (sq : ℚ → ℚ) (self other : ObjectInfo) : Vec3 :=
  (G * other.mass /
    (mag2 (other.pos - self.pos) * sq (mag2 (other.pos - self.pos)) + COLLISION_EPSILON)) •
    (other.pos - self.pos)

/-! ## C7: the work splitter

The current splitter (`direct.rs`) is shown to produce a partition of `0..n`
into ⌈n/t⌉-sized contiguous chunks; the legacy splitter (`sim.rs`) is shown to
violate that contract and panic on 25 bodies. -/

/-- Indices covered by a `(start, length)` chunk. -/
def chunkIndices (c : Nat × Nat) : List Nat :=
  (List.range c.2).map (c.1 + ·)

/-- Two-body example used by the construction witnesses. -/
def exampleObjects : List ObjectInfo :=
  [⟨(0, 0, 0), (0, 0, 0), 1⟩, ⟨(1, 1, 1), (0, 0, 0), 3⟩]

/-- The octree the builder produces from `exampleObjects`: the padded
bounding box is `(-1/5, 11/10)` per axis, body 0 falls in the all-low octant,
body 1 in the all-high octant, total mass 4, center of mass `(3/4, 3/4, 3/4)`. -/
def exampleTree : FmmNode :=
  .internal ⟨(-1/5, 11/10), (-1/5, 11/10), (-1/5, 11/10)⟩
    [.external ⟨(-1/5, 9/20), (-1/5, 9/20), (-1/5, 9/20)⟩ 0,
     .external ⟨(9/20, 11/10), (9/20, 11/10), (9/20, 11/10)⟩ 1]
    (3/4, 3/4, 3/4) 4

/-- Value of the example traversal, used by the C2 witness. -/
def exampleLoopValue : Vec3 :=
  (computeAccLoop id 1 exampleObjects 0 (exampleObjects.getD 0 defaultObject) 5
    [exampleTree] 0).getD 0

/-! ## Theorems -/

/-! ## Basic algebraic facts about the embedding -/

theorem mag2_neg_sub (u v : Vec3) : mag2 (u - v) = mag2 (v - u) := by
  simp [mag2, Prod.fst_sub, Prod.snd_sub]
  ring

/-! ## C10: `Region::size` uses only the x extent -/

/-- C10: for every constructed `Region`, `size()` returns only the x-axis
extent `|x_range.1 - x_range.0|`; any two regions with the same `x_range`
have the same size, hence the same Barnes–Hut acceptance test
`dist_sq * theta_sq < size * size`, whatever their y and z extents. -/
theorem spec_C10_size_uses_only_x (r r2 : Region) (h : r2.x_range = r.x_range) :
    Region.size r = |r.x_range.2 - r.x_range.1| ∧
    Region.size r2 = Region.size r ∧
    ∀ dist_sq theta_sq : ℚ,
      (dist_sq * theta_sq < Region.size r2 * Region.size r2 ↔
        dist_sq * theta_sq < Region.size r * Region.size r) := by
  unfold Region.size
  rw [h]
  exact ⟨rfl, rfl, fun _ _ => Iff.rfl⟩

/-- Witness for C10: two regions sharing `x_range` but with different y and z
extents (such as octants of a non-cubic root box). -/
theorem spec_C10_size_uses_only_x_witness :
    Region.size ⟨(0, 1), (0, 2), (0, 3)⟩ = |(1 : ℚ) - 0| ∧
    Region.size ⟨(0, 1), (5, 6), (7, 9)⟩ = Region.size ⟨(0, 1), (0, 2), (0, 3)⟩ ∧
    ∀ dist_sq theta_sq : ℚ,
      (dist_sq * theta_sq <
          Region.size ⟨(0, 1), (5, 6), (7, 9)⟩ * Region.size ⟨(0, 1), (5, 6), (7, 9)⟩ ↔
        dist_sq * theta_sq <
          Region.size ⟨(0, 1), (0, 2), (0, 3)⟩ * Region.size ⟨(0, 1), (0, 2), (0, 3)⟩) :=
  spec_C10_size_uses_only_x ⟨(0, 1), (0, 2), (0, 3)⟩ ⟨(0, 1), (5, 6), (7, 9)⟩ rfl

/-! ## C6: the integrator -/

/-- C6: for every body array, acceleration array of equal length and every
`dt`, the integrator `add_acc` updates each body by
`velocity += acceleration * dt` followed by `position += velocity * dt` using
the already-updated velocity (semi-implicit Euler), and resets that body's
acceleration slot to exactly zero. -/
theorem spec_C6_integrator_semi_implicit_euler (objects : List ObjectInfo)
    (accs : List Vec3) (delta : ℚ) (idx : Nat)
    (hlen : accs.length = objects.length) (hidx : idx < objects.length) :
    ((add_acc objects accs delta).1.getD idx defaultObject).vel
        = (objects.getD idx defaultObject).vel + delta • accs.getD idx 0 ∧
    ((add_acc objects accs delta).1.getD idx defaultObject).pos
        = (objects.getD idx defaultObject).pos +
          delta • ((objects.getD idx defaultObject).vel + delta • accs.getD idx 0) ∧
    (add_acc objects accs delta).2.getD idx 0 = 0 := by
  induction objects generalizing accs idx with
  | nil => exact absurd hidx (by simp)
  | cons o os ih =>
      cases accs with
      | nil => simp at hlen
      | cons a as =>
          cases idx with
          | zero => simp [add_acc]
          | succ n =>
              have hlen2 : as.length = os.length := by simpa using hlen
              have hn : n < os.length := by simpa using hidx
              simpa [add_acc] using ih as n hlen2 hn

/-- Witness for C6 at a concrete one-body system. -/
theorem spec_C6_integrator_semi_implicit_euler_witness :
    ((add_acc [⟨(1, 0, 0), (0, 1, 0), 5⟩] [(0, 0, 1)] 2).1.getD 0 defaultObject).vel
        = (([⟨(1, 0, 0), (0, 1, 0), 5⟩] : List ObjectInfo).getD 0 defaultObject).vel
          + (2 : ℚ) • ([((0 : ℚ), (0 : ℚ), (1 : ℚ))].getD 0 0) ∧
    ((add_acc [⟨(1, 0, 0), (0, 1, 0), 5⟩] [(0, 0, 1)] 2).1.getD 0 defaultObject).pos
        = (([⟨(1, 0, 0), (0, 1, 0), 5⟩] : List ObjectInfo).getD 0 defaultObject).pos
          + (2 : ℚ) • ((([⟨(1, 0, 0), (0, 1, 0), 5⟩] : List ObjectInfo).getD 0 defaultObject).vel
            + (2 : ℚ) • ([((0 : ℚ), (0 : ℚ), (1 : ℚ))].getD 0 0)) ∧
    (add_acc [⟨(1, 0, 0), (0, 1, 0), 5⟩] [(0, 0, 1)] 2).2.getD 0 0 = 0 :=
  spec_C6_integrator_semi_implicit_euler [⟨(1, 0, 0), (0, 1, 0), 5⟩] [(0, 0, 1)] 2 0
    (by simp) (by simp)

/-! ## C9: Newton's third law for the two-body Direct evaluation -/

/-- C9: for every two-body system, the Direct evaluator's accelerations
satisfy `m1 * a1 + m2 * a2 = 0`: both contributions are computed from
opposite relative-position vectors over the same denominator, so the
mass-weighted sum cancels exactly. -/
theorem spec_C9_newton_third_law (sq : ℚ → ℚ) (b1 b2 : ObjectInfo) :
    b1.mass • (iter_chunk sq [b1, b2] [0, 0] 0).getD 0 0 +
      b2.mass • (iter_chunk sq [b1, b2] [0, 0] 0).getD 1 0 = 0 := by
  have hmag : mag2 (b1.pos - b2.pos) = mag2 (b2.pos - b1.pos) := mag2_neg_sub _ _
  simp only [iter_chunk, iterChunkGo, accFromOthers, List.enum, List.enumFrom,
    List.foldl, get_acc_towards, List.getD_cons_zero, List.getD_cons_succ]
  norm_num
  rw [hmag]
  have h12 : b1.pos - b2.pos = -(b2.pos - b1.pos) := by abel
  rw [h12]
  set s := sq (mag2 (b2.pos - b1.pos)) with hs
  set r := b2.pos - b1.pos with hr
  set d := mag2 r * s + COLLISION_EPSILON with hd
  simp only [smul_neg, smul_smul, zero_add]
  rw [← sub_eq_add_neg, ← sub_smul]
  have hc : b1.mass * (b2.mass * G / d) - b2.mass * (b1.mass * G / d) = 0 := by ring
  rw [hc, zero_smul]

theorem get_acc_towards_eq_add_contribution (sq : ℚ → ℚ) (self other : ObjectInfo)
    (out : Vec3) :
    get_acc_towards sq self other out = out + accContribution sq self other := by
  unfold get_acc_towards accContribution
  rw [mul_comm other.mass G]

theorem foldl_skip_eq_add_sum (sq : ℚ → ℚ) (obj : ObjectInfo) (i : Nat) :
    ∀ (l : List (Nat × ObjectInfo)) (out : Vec3),
      l.foldl (fun acc other =>
          if other.1 = i then acc else get_acc_towards sq obj other.2 acc) out
        = out + (l.map (fun other =>
            if other.1 = i then 0 else accContribution sq obj other.2)).sum := by
  intro l
  induction l with
  | nil => intro out; simp
  | cons p l ih =>
      intro out
      rw [List.foldl_cons, List.map_cons, List.sum_cons]
      by_cases h : p.1 = i
      · rw [if_pos h, if_pos h, ih, zero_add]
      · rw [if_neg h, if_neg h, get_acc_towards_eq_add_contribution, ih, add_assoc]

theorem enumFrom_map_sum (f : Nat × ObjectInfo → Vec3) :
    ∀ (l : List ObjectInfo) (k : Nat),
      ((List.enumFrom k l).map f).sum
        = ∑ j ∈ Finset.range l.length, f (k + j, l.getD j defaultObject) := by
  intro l
  induction l with
  | nil => intro k; simp
  | cons a l ih =>
      intro k
      rw [List.enumFrom_cons, List.map_cons, List.sum_cons, ih (k + 1)]
      rw [List.length_cons, Finset.sum_range_succ']
      have hcongr : ∀ j ∈ Finset.range l.length,
          f (k + (j + 1), (a :: l).getD (j + 1) defaultObject)
            = f (k + 1 + j, l.getD j defaultObject) := by
        intro j _
        rw [List.getD_cons_succ, show k + (j + 1) = k + 1 + j by omega]
      rw [Finset.sum_congr rfl hcongr, add_comm]
      simp

theorem sum_ite_ne_eq_sum_sdiff (n i : Nat) (g : Nat → Vec3) :
    (∑ j ∈ Finset.range n, if j = i then 0 else g j)
      = ∑ j ∈ Finset.range n \ {i}, g j := by
  calc (∑ j ∈ Finset.range n, if j = i then 0 else g j)
      = ∑ j ∈ Finset.range n, if j ≠ i then g j else 0 :=
        Finset.sum_congr rfl (fun j _ => (ite_not (j = i) (g j) 0).symm)
    _ = ∑ j ∈ (Finset.range n).filter (fun j => j ≠ i), g j :=
        (Finset.sum_filter _ _).symm
    _ = ∑ j ∈ (Finset.range n).erase i, g j := by rw [Finset.filter_ne']
    _ = ∑ j ∈ Finset.range n \ {i}, g j := by rw [Finset.erase_eq]

theorem iterChunkGo_getD (sq : ℚ → ℚ) (objects : List ObjectInfo) :
    ∀ (buf : List Vec3) (start idx : Nat), idx < buf.length →
      (iterChunkGo sq objects buf start).getD idx 0
        = accFromOthers sq objects (start + idx)
            (objects.getD (start + idx) defaultObject) (buf.getD idx 0) := by
  intro buf
  induction buf with
  | nil => intro start idx h; exact absurd h (by simp)
  | cons v rest ih =>
      intro start idx h
      cases idx with
      | zero => simp [iterChunkGo]
      | succ n =>
          have hn : n < rest.length := by simpa using h
          rw [iterChunkGo, List.getD_cons_succ, List.getD_cons_succ,
            ih (start + 1) n hn, show start + 1 + n = start + (n + 1) by omega]

/-- C1: one call of the Direct evaluator's `iter_chunk` adds to the existing
contents of out-slot `idx` (the body with global index `start + idx`) exactly
the sum, over every other index `j ≠ start + idx`, of
`G · mass_j · (pos_j - pos_i) / (|pos_j - pos_i|³ + ε)`; the self term
contributes nothing.  The hypothesis mirrors the `debug_assert!` that the
chunk stays inside the body array. -/
theorem spec_C1_direct_adds_pairwise_sum (sq : ℚ → ℚ) (objects : List ObjectInfo)
    (out_buffer : List Vec3) (start idx : Nat)
    (hrange : start + out_buffer.length ≤ objects.length)
    (hidx : idx < out_buffer.length) :
    (iter_chunk sq objects out_buffer start).getD idx 0
      = out_buffer.getD idx 0 +
        ∑ j ∈ Finset.range objects.length \ {start + idx},
          accContribution sq (objects.getD (start + idx) defaultObject)
            (objects.getD j defaultObject) := by
  rw [iter_chunk, iterChunkGo_getD sq objects out_buffer start idx hidx]
  rw [accFromOthers, show objects.enum = List.enumFrom 0 objects from rfl]
  rw [foldl_skip_eq_add_sum]
  rw [enumFrom_map_sum (fun other =>
    if other.1 = start + idx then 0
    else accContribution sq (objects.getD (start + idx) defaultObject) other.2) objects 0]
  simp only [Nat.zero_add]
  rw [sum_ite_ne_eq_sum_sdiff objects.length (start + idx)
    (fun j => accContribution sq (objects.getD (start + idx) defaultObject)
      (objects.getD j defaultObject))]

/-- Witness for C1 on a concrete two-body system (chunk covering the whole
array). -/
theorem spec_C1_direct_adds_pairwise_sum_witness :
    (iter_chunk id [⟨(0, 0, 0), (0, 0, 0), 2⟩, ⟨(1, 0, 0), (0, 0, 0), 3⟩] [0, 0] 0).getD 0 0
      = ([(0, 0, 0), (0, 0, 0)] : List Vec3).getD 0 0 +
        ∑ j ∈ Finset.range 2 \ {0},
          accContribution id
            (([⟨(0, 0, 0), (0, 0, 0), 2⟩, ⟨(1, 0, 0), (0, 0, 0), 3⟩] :
                List ObjectInfo).getD 0 defaultObject)
            (([⟨(0, 0, 0), (0, 0, 0), 2⟩, ⟨(1, 0, 0), (0, 0, 0), 3⟩] :
                List ObjectInfo).getD j defaultObject) := by
  have h := spec_C1_direct_adds_pairwise_sum id
    [⟨(0, 0, 0), (0, 0, 0), 2⟩, ⟨(1, 0, 0), (0, 0, 0), 3⟩] [0, 0] 0 0
    (by decide) (by decide)
  simpa using h

/-! ## C8: chunking does not change the Direct evaluator's output -/

theorem iterChunkGo_append (sq : ℚ → ℚ) (objects : List ObjectInfo) :
    ∀ (xs ys : List Vec3) (i : Nat),
      iterChunkGo sq objects (xs ++ ys) i
        = iterChunkGo sq objects xs i ++ iterChunkGo sq objects ys (i + xs.length) := by
  intro xs
  induction xs with
  | nil => intro ys i; simp [iterChunkGo]
  | cons v rest ih =>
      intro ys i
      rw [List.cons_append, iterChunkGo, iterChunkGo, ih ys (i + 1), List.cons_append,
        List.length_cons, show i + 1 + rest.length = i + (rest.length + 1) by omega]

theorem execIterRec_eq_single_chunk (sq : ℚ → ℚ) (objects : List ObjectInfo) :
    ∀ (fuel : Nat) (buf : List Vec3) (per idx : Nat), 0 < per → 0 < fuel →
      buf.length ≤ fuel * per →
      execIterRec sq objects fuel buf per idx
        = some (iter_chunk sq objects buf (idx * per)) := by
  intro fuel
  induction fuel with
  | zero => intro _ _ _ _ hf _; omega
  | succ f ih =>
      intro buf per idx hper _ hlen
      rw [execIterRec]
      by_cases h : per ≥ buf.length
      · rw [if_pos h]
      · rw [if_neg h]
        have hf : 0 < f := by
          rcases Nat.eq_zero_or_pos f with h0 | h0
          · subst h0; simp at hlen; omega
          · exact h0
        have hmul : (f + 1) * per = f * per + per := Nat.succ_mul f per
        have hdrop : (buf.drop per).length ≤ f * per := by
          rw [List.length_drop]; omega
        rw [ih (buf.drop per) per (idx + 1) hper hf hdrop]
        have htake : (buf.take per).length = per := by
          rw [List.length_take]; omega
        rw [iter_chunk, iter_chunk, iter_chunk]
        conv_rhs => rw [← List.take_append_drop per buf]
        rw [iterChunkGo_append, htake,
          show idx * per + per = (idx + 1) * per by ring]

/-- C8: for every fixed body array and pre-zeroed output buffer, the Direct
evaluator's parallel recursion produces the same output for every chunk size
(`per_thread`) — both runs equal the single-chunk evaluation, so the parallel
decomposition never changes the computed accelerations. -/
theorem spec_C8_chunking_invariance (sq : ℚ → ℚ) (objects : List ObjectInfo)
    (per1 per2 fuel1 fuel2 : Nat) (hp1 : 0 < per1) (hp2 : 0 < per2)
    (hf1 : 0 < fuel1) (hf2 : 0 < fuel2)
    (hl1 : objects.length ≤ fuel1 * per1) (hl2 : objects.length ≤ fuel2 * per2) :
    execIterRec sq objects fuel1 (List.replicate objects.length 0) per1 0
      = execIterRec sq objects fuel2 (List.replicate objects.length 0) per2 0 := by
  have hlen : (List.replicate objects.length (0 : Vec3)).length = objects.length :=
    List.length_replicate _ _
  rw [execIterRec_eq_single_chunk sq objects fuel1 _ per1 0 hp1 hf1 (by rw [hlen]; exact hl1),
    execIterRec_eq_single_chunk sq objects fuel2 _ per2 0 hp2 hf2 (by rw [hlen]; exact hl2),
    Nat.zero_mul, Nat.zero_mul]

/-- Witness for C8: two bodies split with chunk sizes 1 and 2. -/
theorem spec_C8_chunking_invariance_witness :
    execIterRec id [⟨(0, 0, 0), (0, 0, 0), 2⟩, ⟨(1, 0, 0), (0, 0, 0), 3⟩] 3
        (List.replicate 2 0) 1 0
      = execIterRec id [⟨(0, 0, 0), (0, 0, 0), 2⟩, ⟨(1, 0, 0), (0, 0, 0), 3⟩] 3
        (List.replicate 2 0) 2 0 :=
  spec_C8_chunking_invariance id _ 1 2 3 3 (by decide) (by decide) (by decide)
    (by decide) (by decide) (by decide)

theorem chunksRec_partition_general :
    ∀ (fuel per remaining idx : Nat), 0 < per → 0 < remaining → 0 < fuel →
      remaining ≤ fuel * per →
      ∃ l, chunksRec fuel per remaining idx = some l ∧
        l ≠ [] ∧
        (l.map chunkIndices).flatten = (List.range remaining).map (idx * per + ·) ∧
        (∀ c ∈ l.dropLast, c.2 = per) ∧
        (∀ c ∈ l, 0 < c.2 ∧ c.2 ≤ per) ∧
        (∀ k, k < l.length → (l.getD k (0, 0)).1 = (idx + k) * per) := by
  intro fuel
  induction fuel with
  | zero => intro _ _ _ _ _ hf _; omega
  | succ f ih =>
      intro per remaining idx hper hrem _ hlen
      rw [chunksRec]
      by_cases h : per ≥ remaining
      · refine ⟨[(idx * per, remaining)], by rw [if_pos h], by simp, ?_, by simp, ?_, ?_⟩
        · simp [chunkIndices]
        · intro c hc
          simp at hc
          rcases hc with ⟨hc1, hc2⟩
          omega
        · intro k hk
          simp at hk
          subst hk
          simp
      · have hf : 0 < f := by
          rcases Nat.eq_zero_or_pos f with h0 | h0
          · subst h0; simp at hlen; omega
          · exact h0
        have hmul : (f + 1) * per = f * per + per := Nat.succ_mul f per
        obtain ⟨l, hl, hne, hflat, hdrop, hsz, hstart⟩ :=
          ih per (remaining - per) (idx + 1) hper (by omega) hf (by omega)
        refine ⟨(idx * per, per) :: l, ?_, by simp, ?_, ?_, ?_, ?_⟩
        · rw [if_neg h, hl]
        · rw [List.map_cons, List.flatten_cons, hflat]
          have hsplit : remaining = per + (remaining - per) := by omega
          conv_rhs => rw [hsplit, List.range_add, List.map_append, List.map_map]
          congr 1
          apply List.map_congr_left
          intro j _
          simp only [Function.comp_apply]
          have hmul2 : (idx + 1) * per = idx * per + per := Nat.succ_mul idx per
          omega
        · cases l with
          | nil => exact absurd rfl hne
          | cons c0 t =>
              intro c hc
              rw [List.dropLast_cons₂] at hc
              rcases List.mem_cons.mp hc with h1 | h2
              · rw [h1]
              · exact hdrop c h2
        · intro c hc
          rcases List.mem_cons.mp hc with h1 | h2
          · rw [h1]; exact ⟨hper, le_refl per⟩
          · exact hsz c h2
        · intro k hk
          cases k with
          | zero => simp
          | succ k2 =>
              have hk2 : k2 < l.length := by simpa using hk
              rw [List.getD_cons_succ, hstart k2 hk2,
                show idx + 1 + k2 = idx + (k2 + 1) by omega]

/-- Partition property of the current (`direct.rs`) splitter: with
`t = compute_target_threads n = min(max_threads, ceil(n / objects_per_thread))`
and `per = ceil(n / t)` (the value of `ObjectBuffer::new`), the recursion
splits `0..n` into contiguous chunks `[k·per, (k+1)·per)` of size `per`, the
last possibly smaller, covering every index exactly once. -/
theorem chunksRec_direct_partition (n fuel : Nat) (hn : 0 < n) (hfuel : 0 < fuel)
    (hlen : n ≤ fuel * natDivCeil n (compute_target_threads n)) :
    compute_target_threads n
        = MAX_THREADS.min (natDivCeil n OBJECTS_PER_THREAD) ∧
      ∃ l, chunksRec fuel (natDivCeil n (compute_target_threads n)) n 0 = some l ∧
        (l.map chunkIndices).flatten = List.range n ∧
        (∀ c ∈ l.dropLast, c.2 = natDivCeil n (compute_target_threads n)) ∧
        (∀ c ∈ l, 0 < c.2 ∧ c.2 ≤ natDivCeil n (compute_target_threads n)) ∧
        (∀ k, k < l.length →
          (l.getD k (0, 0)).1 = k * natDivCeil n (compute_target_threads n)) := by
  have hopt : OBJECTS_PER_THREAD = 2000 := rfl
  have hmax : MAX_THREADS = 20 := rfl
  constructor
  · rw [compute_target_threads]
    exact Nat.min_comm _ _
  · have ht : 0 < compute_target_threads n := by
      rw [compute_target_threads, natDivCeil, hopt, hmax]
      have h1 : 0 < (n + 2000 - 1) / 2000 := Nat.div_pos (by omega) (by omega)
      exact Nat.lt_min.mpr ⟨h1, by omega⟩
    have hper : 0 < natDivCeil n (compute_target_threads n) := by
      rw [natDivCeil]
      apply Nat.div_pos <;> omega
    obtain ⟨l, hl, _, hflat, hdrop, hsz, hstart⟩ :=
      chunksRec_partition_general fuel (natDivCeil n (compute_target_threads n)) n 0
        hper hn hfuel hlen
    refine ⟨l, hl, ?_, hdrop, hsz, ?_⟩
    · rw [hflat]
      apply List.map_congr_left ?_ |>.trans (List.map_id _)
      intro j _
      simp
    · intro k hk
      rw [hstart k hk, Nat.zero_add]

/-- C7 (failing case): the legacy splitter in `sim.rs` violates the chunking
contract.  For 25 bodies its own constants give `t = 3` threads and
`per_thread = 9`, but the second recursion level calls
`split_at_mut(18)` on the 16-element remainder slice, which panics; the claim
requires chunks of sizes 9, 9, 7.  (The `direct.rs` splitter satisfies the
claim: see `chunksRec_direct_partition`.) -/
theorem spec_C7_legacy_splitter_panics :
    legacyComputeTargetThreads 25 = 3 ∧
    legacyPerThread 25 3 = 9 ∧
    legacyExecIterRec 10 25 25 9 0 = .panicked := by
  refine ⟨by decide, by decide, by decide⟩

/-! ## C5: every body inside a split node lands in exactly one octant -/

theorem contains_octantBox_iff (r : Region) (p : Vec3)
    (hx1 : r.x_range.1 ≤ p.1) (hx2 : p.1 < r.x_range.2)
    (hy1 : r.y_range.1 ≤ p.2.1) (hy2 : p.2.1 < r.y_range.2)
    (hz1 : r.z_range.1 ≤ p.2.2) (hz2 : p.2.2 < r.z_range.2)
    (bx byy bz : Bool) :
    ((octantBox r bx byy bz).contains p = true) ↔
      ((bx = true ↔ r.x_range.1 + (r.x_range.2 - r.x_range.1) / 2 ≤ p.1) ∧
       (byy = true ↔ r.y_range.1 + (r.y_range.2 - r.y_range.1) / 2 ≤ p.2.1) ∧
       (bz = true ↔ r.z_range.1 + (r.z_range.2 - r.z_range.1) / 2 ≤ p.2.2)) := by
  cases bx <;> cases byy <;> cases bz <;>
    · simp only [octantBox, Region.contains, decide_eq_true_eq, if_true, if_false,
        Bool.false_eq_true, false_iff, true_iff, not_le]
      constructor
      · rintro ⟨c1, c2, c3, c4, c5, c6⟩
        exact ⟨by linarith, by linarith, by linarith⟩
      · rintro ⟨d1, d2, d3⟩
        exact ⟨by linarith, by linarith, by linarith, by linarith, by linarith, by linarith⟩

/-- C5: a body contained in the node being split lies in exactly one of the
node's 8 octants (the octant lower bounds are inclusive, the upper bounds
exclusive, so a body exactly on a splitting plane goes to the upper side);
no body is assigned to zero octants or to two. -/
theorem spec_C5_exactly_one_octant (r : Region) (p : Vec3)
    (h : r.contains p = true) :
    (octants r).countP (fun o => o.contains p) = 1 ∧ (octants r).length = 8 := by
  rw [Region.contains, decide_eq_true_eq] at h
  obtain ⟨hx1, hx2, hy1, hy2, hz1, hz2⟩ := h
  have hchar := contains_octantBox_iff r p hx1 hx2 hy1 hy2 hz1 hz2
  refine ⟨?_, by simp [octants]⟩
  rcases le_or_lt (r.x_range.1 + (r.x_range.2 - r.x_range.1) / 2) p.1 with hX | hX
  · rcases le_or_lt (r.y_range.1 + (r.y_range.2 - r.y_range.1) / 2) p.2.1 with hY | hY
    · rcases le_or_lt (r.z_range.1 + (r.z_range.2 - r.z_range.1) / 2) p.2.2 with hZ | hZ
      · simp [octants, List.countP_cons, hchar, hX, hY, hZ]
      · simp [octants, List.countP_cons, hchar, hX, hY, not_le.mpr hZ]
    · rcases le_or_lt (r.z_range.1 + (r.z_range.2 - r.z_range.1) / 2) p.2.2 with hZ | hZ
      · simp [octants, List.countP_cons, hchar, hX, not_le.mpr hY, hZ]
      · simp [octants, List.countP_cons, hchar, hX, not_le.mpr hY, not_le.mpr hZ]
  · rcases le_or_lt (r.y_range.1 + (r.y_range.2 - r.y_range.1) / 2) p.2.1 with hY | hY
    · rcases le_or_lt (r.z_range.1 + (r.z_range.2 - r.z_range.1) / 2) p.2.2 with hZ | hZ
      · simp [octants, List.countP_cons, hchar, not_le.mpr hX, hY, hZ]
      · simp [octants, List.countP_cons, hchar, not_le.mpr hX, hY, not_le.mpr hZ]
    · rcases le_or_lt (r.z_range.1 + (r.z_range.2 - r.z_range.1) / 2) p.2.2 with hZ | hZ
      · simp [octants, List.countP_cons, hchar, not_le.mpr hX, not_le.mpr hY, hZ]
      · simp [octants, List.countP_cons, hchar, not_le.mpr hX, not_le.mpr hY, not_le.mpr hZ]

/-- Witness for C5: a body exactly on the x splitting plane of a concrete
region is assigned to exactly one octant. -/
theorem spec_C5_exactly_one_octant_witness :
    (octants ⟨(0, 2), (0, 2), (0, 2)⟩).countP
        (fun o => o.contains ((1 : ℚ), (0 : ℚ), (1 : ℚ))) = 1 ∧
      (octants ⟨(0, 2), (0, 2), (0, 2)⟩).length = 8 :=
  spec_C5_exactly_one_octant ⟨(0, 2), (0, 2), (0, 2)⟩ (1, 0, 1)
    (decide_eq_true (by norm_num))

/-! ## C4: construction does not terminate on coincident bodies

`construct_rec` has no guard for groups of bodies sharing one exact position:
such a group is contained in the same octant at every level, so the recursion
re-enters with the same (full) group forever in exact arithmetic.  The
following lemmas make that precise. -/

theorem exists_octant_contains (r : Region) (p : Vec3) (h : r.contains p = true) :
    ∃ o ∈ octants r, o.contains p = true := by
  rw [Region.contains, decide_eq_true_eq] at h
  obtain ⟨hx1, hx2, hy1, hy2, hz1, hz2⟩ := h
  refine ⟨octantBox r
      (decide (r.x_range.1 + (r.x_range.2 - r.x_range.1) / 2 ≤ p.1))
      (decide (r.y_range.1 + (r.y_range.2 - r.y_range.1) / 2 ≤ p.2.1))
      (decide (r.z_range.1 + (r.z_range.2 - r.z_range.1) / 2 ≤ p.2.2)), ?_, ?_⟩
  · cases hbx : decide (r.x_range.1 + (r.x_range.2 - r.x_range.1) / 2 ≤ p.1) <;>
      cases hby : decide (r.y_range.1 + (r.y_range.2 - r.y_range.1) / 2 ≤ p.2.1) <;>
        cases hbz : decide (r.z_range.1 + (r.z_range.2 - r.z_range.1) / 2 ≤ p.2.2) <;>
          simp [octants]
  · rw [contains_octantBox_iff r p hx1 hx2 hy1 hy2 hz1 hz2]
    exact ⟨by simp, by simp, by simp⟩

theorem constructStep_foldl_none (objects : List ObjectInfo)
    (rec : Region → List Nat → Option FmmNode) (points : List Nat) :
    ∀ octs : List Region,
      octs.foldl (octantFold objects rec points) none = none := by
  intro octs
  induction octs with
  | nil => rfl
  | cons o os ih => exact ih

theorem constructStep_none_of_coincident (objects : List ObjectInfo)
    (rec : Region → List Nat → Option FmmNode) (region : Region)
    (points : List Nat) (p : Vec3)
    (hpos : ∀ q ∈ points, (objects.getD q defaultObject).pos = p)
    (hlen : 1 < points.length)
    (hrec : ∀ o ∈ octants region, o.contains p = true → rec o points = none)
    (hcont : ∃ o ∈ octants region, o.contains p = true) :
    constructStep objects rec region points = none := by
  rw [constructStep]
  have main : ∀ octs : List Region,
      (∀ o ∈ octs, o.contains p = true → rec o points = none) →
      (∃ o ∈ octs, o.contains p = true) →
      ∀ cs : List FmmNode,
      octs.foldl (octantFold objects rec points) (some cs) = none := by
    intro octs
    induction octs with
    | nil =>
        rintro _ ⟨o, ho, _⟩ _
        exact absurd ho (List.not_mem_nil o)
    | cons o os ih =>
        intro hr hex cs
        rw [List.foldl_cons, octantFold]
        by_cases hc : o.contains p = true
        · have hgroup : points.filter
              (fun q => o.contains (objects.getD q defaultObject).pos) = points := by
            apply List.filter_eq_self.mpr
            intro q hq
            rw [hpos q hq, hc]
          simp only [hgroup]
          have hne : ¬points.isEmpty = true := by
            cases points with
            | nil => simp at hlen
            | cons _ _ => simp
          rw [if_neg hne, if_pos hlen, hr o (List.mem_cons_self o os) hc]
          exact constructStep_foldl_none objects rec points os
        · have hgroup : points.filter
              (fun q => o.contains (objects.getD q defaultObject).pos) = [] := by
            apply List.filter_eq_nil_iff.mpr
            intro q hq
            rw [hpos q hq]
            exact fun hh => hc hh
          simp only [hgroup]
          rw [if_pos (by rfl)]
          refine ih (fun o2 ho2 => hr o2 (List.mem_cons_of_mem o ho2)) ?_ cs
          obtain ⟨o2, ho2, hco2⟩ := hex
          rcases List.mem_cons.mp ho2 with h1 | h2
          · exact absurd (h1 ▸ hco2) hc
          · exact ⟨o2, h2, hco2⟩
  rw [main (octants region) hrec hcont []]

theorem construct_rec_coincident_none (b : ObjectInfo) :
    ∀ (fuel : Nat) (region : Region), region.contains b.pos = true →
      construct_rec [b, b] fuel region [0, 1] = none := by
  intro fuel
  induction fuel with
  | zero => intro region _; rfl
  | succ f ih =>
      intro region hreg
      rw [construct_rec]
      apply constructStep_none_of_coincident [b, b] _ region [0, 1] b.pos
      · intro q hq
        rcases List.mem_cons.mp hq with h1 | h2
        · subst h1; rfl
        · rcases List.mem_cons.mp h2 with h3 | h4
          · subst h3; rfl
          · exact absurd h4 (List.not_mem_nil q)
      · simp
      · intro o _ hco
        exact ih o hco
      · exact exists_octant_contains region b.pos hreg

/-- C4 (failing case): two bodies at the same exact position do NOT become a
leaf — `construct_rec` re-enters the same two-element group in the containing
octant at every level, so (in exact arithmetic) the full tree builder returns
no tree at every fuel bound: the recursion is unbounded.  There is no
coincident-position guard and no leaf bucket in the code (`NodeData::External`
holds exactly one `ObjectId`). -/
theorem spec_C4_coincident_bodies_never_leaf :
    ∀ fuel : Nat,
      build_tree [⟨(0, 0, 0), (0, 0, 0), 1⟩, ⟨(0, 0, 0), (0, 0, 0), 1⟩] fuel
        = none := by
  intro fuel
  have heq : build_tree [⟨(0, 0, 0), (0, 0, 0), 1⟩, ⟨(0, 0, 0), (0, 0, 0), 1⟩] fuel
      = construct_rec [⟨(0, 0, 0), (0, 0, 0), 1⟩, ⟨(0, 0, 0), (0, 0, 0), 1⟩] fuel
          ⟨(-1/5, 1/5), (-1/5, 1/5), (-1/5, 1/5)⟩ [0, 1] := by
    norm_num [build_tree, boundMin, boundMax, List.range_succ, min_def, max_def]
  rw [heq]
  exact construct_rec_coincident_none ⟨(0, 0, 0), (0, 0, 0), 1⟩ fuel
    ⟨(-1/5, 1/5), (-1/5, 1/5), (-1/5, 1/5)⟩ (decide_eq_true (by norm_num))

/-! ## C3: the mass-aggregation invariant -/

theorem subtreePoints_external (f : Nat) (oct : Region) (q : Nat) :
    subtreePoints f (.external oct q) = [q] := by
  cases f <;> rfl

theorem treeInvariant_external (objects : List ObjectInfo) (f : Nat) (oct : Region)
    (q : Nat) : treeInvariant objects f (.external oct q) = true := by
  cases f <;> rfl

theorem massOfPoints_append (objects : List ObjectInfo) (l1 l2 : List Nat) :
    massOfPoints objects (l1 ++ l2)
      = massOfPoints objects l1 + massOfPoints objects l2 := by
  simp [massOfPoints]

theorem weightedPosOfPoints_append (objects : List ObjectInfo) (l1 l2 : List Nat) :
    weightedPosOfPoints objects (l1 ++ l2)
      = weightedPosOfPoints objects l1 + weightedPosOfPoints objects l2 := by
  simp [weightedPosOfPoints]

theorem massOfPoints_flatten (objects : List ObjectInfo) :
    ∀ L : List (List Nat),
      massOfPoints objects L.flatten = (L.map (massOfPoints objects)).sum := by
  intro L
  induction L with
  | nil => rfl
  | cons l L ih =>
      rw [List.flatten_cons, massOfPoints_append, ih, List.map_cons, List.sum_cons]

theorem weightedPosOfPoints_flatten (objects : List ObjectInfo) :
    ∀ L : List (List Nat),
      weightedPosOfPoints objects L.flatten
        = (L.map (weightedPosOfPoints objects)).sum := by
  intro L
  induction L with
  | nil => rfl
  | cons l L ih =>
      rw [List.flatten_cons, weightedPosOfPoints_append, ih, List.map_cons, List.sum_cons]

theorem getD_mass_nonneg (objects : List ObjectInfo)
    (hm : ∀ o ∈ objects, 0 ≤ o.mass) (q : Nat) :
    0 ≤ (objects.getD q defaultObject).mass := by
  rcases lt_or_ge q objects.length with h | h
  · rw [List.getD_eq_getElem objects defaultObject h]
    exact hm _ (List.getElem_mem h)
  · rw [List.getD_eq_default objects defaultObject h]
    exact le_refl 0

theorem massOfPoints_nonneg (objects : List ObjectInfo)
    (hm : ∀ o ∈ objects, 0 ≤ o.mass) (pts : List Nat) :
    0 ≤ massOfPoints objects pts := by
  apply List.sum_nonneg
  intro x hx
  obtain ⟨q, _, rfl⟩ := List.mem_map.mp hx
  exact getD_mass_nonneg objects hm q

theorem list_sum_zero_of_nonneg :
    ∀ L : List ℚ, (∀ x ∈ L, 0 ≤ x) → L.sum = 0 → ∀ x ∈ L, x = 0 := by
  intro L
  induction L with
  | nil => intro _ _ x hx; exact absurd hx (List.not_mem_nil x)
  | cons a L ih =>
      intro hpos hsum x hx
      have ha : 0 ≤ a := hpos a (List.mem_cons_self a L)
      have hL : 0 ≤ L.sum := List.sum_nonneg (fun y hy => hpos y (List.mem_cons_of_mem a hy))
      rw [List.sum_cons] at hsum
      rcases List.mem_cons.mp hx with h1 | h2
      · subst h1; linarith
      · exact ih (fun y hy => hpos y (List.mem_cons_of_mem a hy)) (by linarith) x h2

theorem octantFold_mem_origin (objects : List ObjectInfo)
    (rec : Region → List Nat → Option FmmNode) (points : List Nat) :
    ∀ (octs : List Region) (acc children : List FmmNode),
      octs.foldl (octantFold objects rec points) (some acc) = some children →
      ∀ c ∈ children, c ∈ acc ∨ (∃ oct q, c = FmmNode.external oct q) ∨
        (∃ oct group, rec oct group = some c) := by
  intro octs
  induction octs with
  | nil =>
      intro acc children h c hc
      rw [List.foldl_nil] at h
      injection h with h2
      subst h2
      exact Or.inl hc
  | cons o os ih =>
      intro acc children h c hc
      rw [List.foldl_cons, octantFold] at h
      by_cases h1 : ((points.filter
          (fun p => o.contains (objects.getD p defaultObject).pos)).isEmpty) = true
      · rw [if_pos h1] at h
        exact ih acc children h c hc
      · rw [if_neg h1] at h
        by_cases h2 : 1 < (points.filter
            (fun p => o.contains (objects.getD p defaultObject).pos)).length
        · rw [if_pos h2] at h
          rcases hr : rec o (points.filter
              (fun p => o.contains (objects.getD p defaultObject).pos)) with _ | child
          · rw [hr] at h
            rw [constructStep_foldl_none objects rec points os] at h
            exact absurd h (by simp)
          · rw [hr] at h
            rcases ih (acc ++ [child]) children h c hc with hin | hrest
            · rcases List.mem_append.mp hin with ha | hb
              · exact Or.inl ha
              · rcases List.mem_singleton.mp hb with rfl
                exact Or.inr (Or.inr ⟨o, _, hr⟩)
            · exact Or.inr hrest
        · rw [if_neg h2] at h
          rcases ih (acc ++ [FmmNode.external o ((points.filter
              (fun p => o.contains (objects.getD p defaultObject).pos)).headD 0)])
              children h c hc with hin | hrest
          · rcases List.mem_append.mp hin with ha | hb
            · exact Or.inl ha
            · rcases List.mem_singleton.mp hb with rfl
              exact Or.inr (Or.inl ⟨o, _, rfl⟩)
          · exact Or.inr hrest

theorem mkInternal_invariant (objects : List ObjectInfo)
    (hm : ∀ o ∈ objects, 0 ≤ o.mass) (f : Nat) (region : Region)
    (children : List FmmNode)
    (hch : ∀ c ∈ children,
      treeInvariant objects f c = true ∧
      (mass_center_mass objects c).2 = massOfPoints objects (subtreePoints f c) ∧
      (mass_center_mass objects c).2 • (mass_center_mass objects c).1
        = weightedPosOfPoints objects (subtreePoints f c)) :
    treeInvariant objects (f + 1) (mkInternal objects region children) = true ∧
    (mass_center_mass objects (mkInternal objects region children)).2
      = massOfPoints objects
          (subtreePoints (f + 1) (mkInternal objects region children)) ∧
    (mass_center_mass objects (mkInternal objects region children)).2
        • (mass_center_mass objects (mkInternal objects region children)).1
      = weightedPosOfPoints objects
          (subtreePoints (f + 1) (mkInternal objects region children)) := by
  have h1 : (children.map (fun c => (mass_center_mass objects c).2)).sum
      = massOfPoints objects ((children.map (subtreePoints f)).flatten) := by
    rw [massOfPoints_flatten, List.map_map]
    apply congrArg List.sum
    apply List.map_congr_left
    intro c hc
    exact (hch c hc).2.1
  have h2 : (children.map
      (fun c => (mass_center_mass objects c).2 • (mass_center_mass objects c).1)).sum
      = weightedPosOfPoints objects ((children.map (subtreePoints f)).flatten) := by
    rw [weightedPosOfPoints_flatten, List.map_map]
    apply congrArg List.sum
    apply List.map_congr_left
    intro c hc
    exact (hch c hc).2.2
  have hzero : (children.map (fun c => (mass_center_mass objects c).2)).sum = 0 →
      (children.map
        (fun c => (mass_center_mass objects c).2 • (mass_center_mass objects c).1)).sum
        = 0 := by
    intro h0
    apply List.sum_eq_zero
    intro x hx
    obtain ⟨c, hc, rfl⟩ := List.mem_map.mp hx
    have hmass : (mass_center_mass objects c).2 = 0 := by
      apply list_sum_zero_of_nonneg _ ?_ h0 _ (List.mem_map.mpr ⟨c, hc, rfl⟩)
      intro x hx2
      obtain ⟨c2, hc2, rfl⟩ := List.mem_map.mp hx2
      rw [(hch c2 hc2).2.1]
      exact massOfPoints_nonneg objects hm _
    rw [hmass, zero_smul]
  refine ⟨?_, ?_, ?_⟩
  · show treeInvariant objects (f + 1) (FmmNode.internal region children _ _) = true
    rw [treeInvariant]
    simp only [Bool.and_eq_true, decide_eq_true_eq, List.all_eq_true]
    refine ⟨⟨⟨h1, ?_⟩, trivial⟩, fun c hc => (hch c hc).1⟩
    rw [← h1, ← h2]
  · show (children.map (fun c => (mass_center_mass objects c).2)).sum
      = massOfPoints objects ((children.map (subtreePoints f)).flatten)
    exact h1
  · show (children.map (fun c => (mass_center_mass objects c).2)).sum
        • (((children.map (fun c => (mass_center_mass objects c).2)).sum)⁻¹
          • (children.map (fun c =>
              (mass_center_mass objects c).2 • (mass_center_mass objects c).1)).sum)
      = weightedPosOfPoints objects ((children.map (subtreePoints f)).flatten)
    rcases eq_or_ne (children.map (fun c => (mass_center_mass objects c).2)).sum 0
      with h0 | h0
    · rw [h0, zero_smul, ← h2, hzero h0]
    · rw [smul_smul, mul_inv_cancel₀ h0, one_smul, h2]

theorem construct_rec_invariant (objects : List ObjectInfo)
    (hm : ∀ o ∈ objects, 0 ≤ o.mass) :
    ∀ (fuel : Nat) (region : Region) (points : List Nat) (t : FmmNode),
      construct_rec objects fuel region points = some t →
      treeInvariant objects fuel t = true ∧
      (mass_center_mass objects t).2 = massOfPoints objects (subtreePoints fuel t) ∧
      (mass_center_mass objects t).2 • (mass_center_mass objects t).1
        = weightedPosOfPoints objects (subtreePoints fuel t) := by
  intro fuel
  induction fuel with
  | zero => intro _ _ _ h; exact absurd h (by simp [construct_rec])
  | succ f ih =>
      intro region points t h
      rw [construct_rec, constructStep] at h
      rcases hE : (octants region).foldl
          (octantFold objects (construct_rec objects f) points) (some []) with _ | children
      · rw [hE] at h
        exact absurd h (by simp)
      · rw [hE] at h
        injection h with h2
        subst h2
        apply mkInternal_invariant objects hm f region children
        intro c hc
        rcases octantFold_mem_origin objects (construct_rec objects f) points
            (octants region) [] children hE c hc with hacc | hext | hrec2
        · exact absurd hacc (List.not_mem_nil c)
        · obtain ⟨oct, q, rfl⟩ := hext
          refine ⟨treeInvariant_external objects f oct q, ?_, ?_⟩
          · rw [subtreePoints_external]
            simp [mass_center_mass, massOfPoints]
          · rw [subtreePoints_external]
            simp [mass_center_mass, weightedPosOfPoints]
        · obtain ⟨oct, group, hr⟩ := hrec2
          exact ih oct group c hr

/-- C3: for every octree the builder produces from a body array with
nonnegative masses, every Internal node stores as its mass the total mass of
the bodies in its subtree, and as its center of mass both the mass-weighted
mean position of those bodies and the child-aggregated quotient
`(Σ child.mass • child.center_of_mass) / aggregate_mass`, recursively at every
depth (`treeInvariant` checks every internal node and fails on fuel
exhaustion, so `true` covers the whole tree). -/
theorem spec_C3_mass_aggregation_invariant (objects : List ObjectInfo)
    (fuel : Nat) (t : FmmNode) (hm : ∀ o ∈ objects, 0 ≤ o.mass)
    (h : build_tree objects fuel = some t) :
    treeInvariant objects fuel t = true := by
  cases objects with
  | nil => exact absurd h (by simp [build_tree])
  | cons o os =>
      rw [build_tree] at h
      exact (construct_rec_invariant (o :: os) hm fuel _ _ t h).1

theorem octants_example :
    octants ⟨(-1/5, 11/10), (-1/5, 11/10), (-1/5, 11/10)⟩ =
      [⟨(-1/5, 9/20), (-1/5, 9/20), (-1/5, 9/20)⟩,
       ⟨(-1/5, 9/20), (-1/5, 9/20), (9/20, 11/10)⟩,
       ⟨(-1/5, 9/20), (9/20, 11/10), (-1/5, 9/20)⟩,
       ⟨(-1/5, 9/20), (9/20, 11/10), (9/20, 11/10)⟩,
       ⟨(9/20, 11/10), (-1/5, 9/20), (-1/5, 9/20)⟩,
       ⟨(9/20, 11/10), (-1/5, 9/20), (9/20, 11/10)⟩,
       ⟨(9/20, 11/10), (9/20, 11/10), (-1/5, 9/20)⟩,
       ⟨(9/20, 11/10), (9/20, 11/10), (9/20, 11/10)⟩] := by
  norm_num [octants, octantBox]

set_option maxHeartbeats 1000000 in
theorem build_tree_example : build_tree exampleObjects 3 = some exampleTree := by
  have h1 : build_tree exampleObjects 3
      = construct_rec exampleObjects 3
          ⟨(-1/5, 11/10), (-1/5, 11/10), (-1/5, 11/10)⟩ [0, 1] := by
    norm_num [build_tree, exampleObjects, boundMin, boundMax, min_def, max_def,
      List.range_succ]
  rw [h1, construct_rec, constructStep, octants_example]
  norm_num [octantFold, Region.contains, List.filter, mkInternal, mass_center_mass,
    exampleObjects, exampleTree, defaultObject, Prod.ext_iff]

/-- Witness for C3: the invariant checker validates the tree built from the
concrete two-body example. -/
theorem spec_C3_mass_aggregation_invariant_witness :
    treeInvariant exampleObjects 3 exampleTree = true :=
  spec_C3_mass_aggregation_invariant exampleObjects 3 exampleTree
    (by intro o ho; fin_cases ho <;> norm_num)
    build_tree_example

/-! ## C2: the Barnes–Hut traversal -/

theorem accOfNode_external (sq : ℚ → ℚ) (theta_sq : ℚ) (objects : List ObjectInfo)
    (id : Nat) (obj : ObjectInfo) (f : Nat) (r : Region) (q : Nat) :
    accOfNode sq theta_sq objects id obj f (.external r q)
      = (if q = id then 0
         else get_acc_towards sq obj (objects.getD q defaultObject) 0) := by
  cases f <;> rfl

theorem depthLE_mono : ∀ (f g : Nat) (t : FmmNode), f ≤ g →
    depthLE f t = true → depthLE g t = true := by
  intro f
  induction f with
  | zero =>
      intro g t _ h
      cases t with
      | external r q => cases g <;> rfl
      | internal r cs cm m => exact absurd h (by rw [depthLE]; simp)
  | succ f ih =>
      intro g t hfg h
      cases t with
      | external r q => cases g <;> rfl
      | internal r cs cm m =>
          cases g with
          | zero => omega
          | succ g2 =>
              rw [depthLE] at h ⊢
              rw [List.all_eq_true] at h ⊢
              exact fun c hc => ih g2 c (by omega) (h c hc)

theorem accOfNode_stable (sq : ℚ → ℚ) (theta_sq : ℚ) (objects : List ObjectInfo)
    (id : Nat) (obj : ObjectInfo) :
    ∀ (f g : Nat) (t : FmmNode), f ≤ g → depthLE f t = true →
      accOfNode sq theta_sq objects id obj g t
        = accOfNode sq theta_sq objects id obj f t := by
  intro f
  induction f with
  | zero =>
      intro g t _ h
      cases t with
      | external r q => rw [accOfNode_external, accOfNode_external]
      | internal r cs cm m => exact absurd h (by rw [depthLE]; simp)
  | succ f ih =>
      intro g t hfg h
      cases t with
      | external r q => rw [accOfNode_external, accOfNode_external]
      | internal r cs cm m =>
          cases g with
          | zero => omega
          | succ g2 =>
              rw [depthLE, List.all_eq_true] at h
              show accOfNodeStep sq theta_sq objects id obj
                  (accOfNode sq theta_sq objects id obj g2) (.internal r cs cm m)
                = accOfNodeStep sq theta_sq objects id obj
                  (accOfNode sq theta_sq objects id obj f) (.internal r cs cm m)
              rw [accOfNodeStep, accOfNodeStep]
              by_cases h0 : mag2 (cm - obj.pos) = 0
              · rw [if_pos h0, if_pos h0]
              · rw [if_neg h0, if_neg h0]
                by_cases h1 : mag2 (cm - obj.pos) * theta_sq
                    < Region.size r * Region.size r
                · rw [if_pos h1, if_pos h1]
                  apply congrArg List.sum
                  apply List.map_congr_left
                  intro c hc
                  exact ih g2 c (by omega) (h c hc)
                · rw [if_neg h1, if_neg h1]

theorem get_acc_towards_out_split (sq : ℚ → ℚ) (a b : ObjectInfo) (out : Vec3) :
    get_acc_towards sq a b out = out + get_acc_towards sq a b 0 := by
  rw [get_acc_towards, get_acc_towards, zero_add]

theorem get_acc_towards_raw_out_split (sq : ℚ → ℚ) (m : ℚ) (rel : Vec3)
    (d2 : ℚ) (out : Vec3) :
    get_acc_towards_raw sq m rel d2 out = out + get_acc_towards_raw sq m rel d2 0 := by
  rw [get_acc_towards_raw, get_acc_towards_raw, zero_add]

theorem computeAccLoop_eq_add_sum (sq : ℚ → ℚ) (theta_sq : ℚ) (objects : List ObjectInfo)
    (id : Nat) (obj : ObjectInfo) (dfuel : Nat) :
    ∀ (loopFuel : Nat) (stack : List FmmNode) (out v : Vec3),
      stack.all (depthLE dfuel) = true →
      computeAccLoop sq theta_sq objects id obj loopFuel stack out = some v →
      v = out + (stack.map (accOfNode sq theta_sq objects id obj dfuel)).sum := by
  intro loopFuel
  induction loopFuel with
  | zero =>
      intro stack out v _ h
      cases stack with
      | nil =>
          simp only [computeAccLoop] at h
          injection h with h2
          subst h2
          simp
      | cons node rest => exact absurd h (by simp [computeAccLoop])
  | succ f ih =>
      intro stack out v hall h
      cases stack with
      | nil =>
          simp only [computeAccLoop] at h
          injection h with h2
          subst h2
          simp
      | cons node rest =>
          rw [List.all_cons, Bool.and_eq_true] at hall
          obtain ⟨hnode, hrest⟩ := hall
          cases node with
          | external r point =>
              simp only [computeAccLoop] at h
              by_cases hp : point = id
              · rw [if_pos hp] at h
                rw [List.map_cons, List.sum_cons, accOfNode_external, if_pos hp,
                  zero_add]
                exact ih rest out v hrest h
              · rw [if_neg hp] at h
                rw [ih rest (get_acc_towards sq obj (objects.getD point defaultObject) out)
                  v hrest h]
                rw [List.map_cons, List.sum_cons, accOfNode_external, if_neg hp,
                  get_acc_towards_out_split, add_assoc]
          | internal r cs cm m =>
              simp only [computeAccLoop] at h
              cases dfuel with
              | zero => exact absurd hnode (by rw [depthLE]; simp)
              | succ d =>
                  have hcs : ∀ c ∈ cs, depthLE d c = true := by
                    rw [depthLE, List.all_eq_true] at hnode
                    exact hnode
                  by_cases h0 : mag2 (cm - obj.pos) = 0
                  · rw [if_pos h0] at h
                    have hstep : accOfNode sq theta_sq objects id obj (d + 1)
                        (.internal r cs cm m) = 0 := by
                      show accOfNodeStep sq theta_sq objects id obj
                        (accOfNode sq theta_sq objects id obj d) (.internal r cs cm m) = 0
                      rw [accOfNodeStep, if_pos h0]
                    rw [List.map_cons, List.sum_cons, hstep, zero_add]
                    exact ih rest out v hrest h
                  · rw [if_neg h0] at h
                    by_cases h1 : mag2 (cm - obj.pos) * theta_sq
                        < Region.size r * Region.size r
                    · rw [if_pos h1] at h
                      have hall2 : (cs.reverse ++ rest).all (depthLE (d + 1)) = true := by
                        rw [List.all_append, Bool.and_eq_true, List.all_reverse]
                        refine ⟨List.all_eq_true.mpr fun c hc =>
                          depthLE_mono d (d + 1) c (by omega) (hcs c hc), hrest⟩
                      rw [ih (cs.reverse ++ rest) out v hall2 h]
                      rw [List.map_append, List.sum_append, List.map_reverse,
                        List.sum_reverse, List.map_cons, List.sum_cons]
                      have hstep : accOfNode sq theta_sq objects id obj (d + 1)
                          (.internal r cs cm m)
                          = (cs.map (accOfNode sq theta_sq objects id obj d)).sum := by
                        show accOfNodeStep sq theta_sq objects id obj
                          (accOfNode sq theta_sq objects id obj d)
                          (.internal r cs cm m) = _
                        rw [accOfNodeStep, if_neg h0, if_pos h1]
                      rw [hstep]
                      have hmaps : (cs.map (accOfNode sq theta_sq objects id obj (d + 1))).sum
                          = (cs.map (accOfNode sq theta_sq objects id obj d)).sum := by
                        apply congrArg List.sum
                        apply List.map_congr_left
                        intro c hc
                        exact accOfNode_stable sq theta_sq objects id obj d (d + 1) c
                          (by omega) (hcs c hc)
                      rw [hmaps]
                    · rw [if_neg h1] at h
                      rw [ih rest (get_acc_towards_raw sq m (cm - obj.pos)
                        (mag2 (cm - obj.pos)) out) v hrest h]
                      have hstep : accOfNode sq theta_sq objects id obj (d + 1)
                          (.internal r cs cm m)
                          = get_acc_towards_raw sq m (cm - obj.pos)
                              (mag2 (cm - obj.pos)) 0 := by
                        show accOfNodeStep sq theta_sq objects id obj
                          (accOfNode sq theta_sq objects id obj d)
                          (.internal r cs cm m) = _
                        rw [accOfNodeStep, if_neg h0, if_neg h1]
                      rw [List.map_cons, List.sum_cons, hstep,
                        get_acc_towards_raw_out_split, add_assoc]

/-- C2: a successful run of the `compute_acc` stack loop on `[root]` computes
exactly the recursive depth-first specification `accOfNode`: at each Internal
node it skips when `dist_sq = 0`, descends into the children when
`dist_sq * theta_sq < size * size`, and otherwise applies the shared
acceleration formula once with the node's aggregate mass at its center of
mass; at an External leaf it applies the body-body acceleration exactly when
the leaf's body is not the queried body.  `depthLE` bounds the tree depth and
the loop fuel only has to suffice for the run to return. -/
theorem spec_C2_traversal_eq_dfs_spec (sq : ℚ → ℚ) (theta_sq : ℚ)
    (objects : List ObjectInfo) (id : Nat) (obj : ObjectInfo)
    (loopFuel dfuel : Nat) (root : FmmNode) (out v : Vec3)
    (hd : depthLE dfuel root = true)
    (h : computeAccLoop sq theta_sq objects id obj loopFuel [root] out = some v) :
    v = out + accOfNode sq theta_sq objects id obj dfuel root := by
  have hall : ([root]).all (depthLE dfuel) = true := by
    rw [List.all_cons, Bool.and_eq_true]
    exact ⟨hd, rfl⟩
  have := computeAccLoop_eq_add_sum sq theta_sq objects id obj dfuel loopFuel
    [root] out v hall h
  simpa using this

/-- Witness for C2 on the concrete two-body tree: with `theta_sq = 1` the root
is opened (`27/16 < 169/100`), the leaf of the queried body is skipped, and
the run equals the recursive specification. -/
theorem spec_C2_traversal_eq_dfs_spec_witness :
    exampleLoopValue
      = 0 + accOfNode id 1 exampleObjects 0 (exampleObjects.getD 0 defaultObject) 1
          exampleTree :=
  spec_C2_traversal_eq_dfs_spec id 1 exampleObjects 0
    (exampleObjects.getD 0 defaultObject) 5 1 exampleTree 0 exampleLoopValue
    (by norm_num [depthLE, exampleTree])
    (by norm_num [exampleLoopValue, computeAccLoop, exampleTree, exampleObjects,
      Region.size, mag2, defaultObject])
